import Mathlib

/-!
Shallow embedding of src/signature.go (package librsync): signature building
(`Signature`), strong-sum computation (`CalcStrongSum`) and signature decoding
(`ReadSignature`), together with proofs about the claims on this code.

Bytes are modelled as natural numbers; `uint32` values as naturals reduced
modulo `2 ^ 32` where the Go code truncates.  The input `io.Reader` of the
build path is modelled as a script of `Read` results (an arbitrary reader),
and the byte-list entry points use the `bytes.Reader` behaviour: each `Read`
delivers `min blockLen remaining` bytes and the exhausted reader returns
`(0, io.EOF)`.  The output `io.Writer` is a test double recording accepted
bytes, with a per-call failure script.
-/

namespace Librsync

/-- Bytes are naturals below 256; byte strings are lists of bytes. -/
abbrev Byte := Nat

/-- Big-endian bytes of a 32-bit value, as written by `binary.Write` with
`binary.BigEndian` on a `uint32`; larger naturals are truncated modulo
`2 ^ 32` exactly as the Go type is. -/
def be32 (x : Nat) : List Byte :=
  [x / 2 ^ 24 % 256, x / 2 ^ 16 % 256, x / 2 ^ 8 % 256, x % 256]

/-- Value of four big-endian bytes, as read by `binary.Read` into a `uint32`. -/
def beVal (a b c d : Byte) : Nat := ((a * 256 + b) * 256 + c) * 256 + d

/-- Modelled from the spec: `MagicNumber` is defined in this repository
outside `src/`; the spec describes it as a 4-byte tag selecting the
strong-hash algorithm.  Concrete value of the BLAKE2 signature magic. -/
def BLAKE2_SIG_MAGIC : Nat := 0x72730137

/-- Modelled from the spec: the legacy MD4 signature magic, a 4-byte tag
distinct from the BLAKE2 one. -/
def MD4_SIG_MAGIC : Nat := 0x72730136

/-- `BLAKE2_SUM_LENGTH` from src/signature.go. -/
def BLAKE2_SUM_LENGTH : Nat := 32

/-- `MD4_SUM_LENGTH` from src/signature.go. -/
def MD4_SUM_LENGTH : Nat := 16

/-- Stand-in for the external `blake2b.Sum256` digest (golang.org/x/crypto,
not part of this repository): a deterministic function of the input block
with a 32-byte output.  The claims under verification depend only on
determinism and on the native output length, which the stand-in shares with
the real digest. -/
def blake2bSum256 (data : List Byte) : List Byte :=
  (List.range 32).map (fun i => (data.foldl (fun a b => a * 131 + b + 1) (i * 37 + 11)) % 256)

/-- Stand-in for the external MD4 digest (golang.org/x/crypto/md4, not part
of this repository): deterministic, 16-byte native output. -/
def md4Sum (data : List Byte) : List Byte :=
  (List.range 16).map (fun i => (data.foldl (fun a b => a * 137 + b + 3) (i * 41 + 5)) % 256)

/-- Full-length digest selected by the algorithm tag (meaningful for the two
recognized tags). -/
def digestOf (sigType : Nat) (data : List Byte) : List Byte :=
  if sigType = BLAKE2_SIG_MAGIC then blake2bSum256 data else md4Sum data

/-- Modelled from the spec: the rolling checksum `WeakChecksum` lives in this
repository outside `src/`; the spec treats it as an opaque deterministic
function from a byte block to a 32-bit value.  Concrete deterministic
stand-in with 32-bit output. -/
def WeakChecksum (data : List Byte) : Nat :=
  (data.foldl (fun a b => a + b) 0) % 2 ^ 32

/-- Result of one call to `CalcStrongSum`: a returned digest, a returned
error value, or a runtime panic (Go slice-bounds panic). -/
inductive StrongRes where
  | ok (digest : List Byte)
  | err
  | goPanic
deriving DecidableEq

/-- `CalcStrongSum` from src/signature.go.  For a recognized tag the source
slices the native digest as `d[:strongLen]`, which yields the first
`strongLen` bytes when `strongLen` is within the native length and panics at
runtime otherwise (32-byte BLAKE2 array, 16-byte MD4 sum); an unrecognized
tag returns an error value. -/
def CalcStrongSum (data : List Byte) (sigType strongLen : Nat) : StrongRes :=
  if sigType = BLAKE2_SIG_MAGIC then
    if strongLen ≤ BLAKE2_SUM_LENGTH then StrongRes.ok ((blake2bSum256 data).take strongLen)
    else StrongRes.goPanic
  else if sigType = MD4_SIG_MAGIC then
    if strongLen ≤ MD4_SUM_LENGTH then StrongRes.ok ((md4Sum data).take strongLen)
    else StrongRes.goPanic
  else StrongRes.err

/-- Model of the Go map `map[uint32]int` as an association list: assignment
installs the new binding and removes any previous binding for the same key,
so a lookup sees the most recent assignment, as a Go map does. -/
def mapInsert (m : List (Nat × Nat)) (k v : Nat) : List (Nat × Nat) :=
  (k, v) :: m.filter (fun p => p.1 != k)

/-- Lookup in the association-list model of the Go map. -/
def mapGet (m : List (Nat × Nat)) (k : Nat) : Option Nat :=
  (m.find? (fun p => p.1 == k)).map (fun p => p.2)

/-- `SignatureType` from src/signature.go. -/
structure SignatureType where
  sigType : Nat
  blockLen : Nat
  strongLen : Nat
  strongSigs : List (List Byte)
  weak2block : List (Nat × Nat)
deriving DecidableEq

/-- Test double for the output `io.Writer`: `buf` holds the accepted bytes,
`calls` counts the `Write` calls made so far, and `failMask` scripts which
calls return an error (a failing call accepts no bytes).  An empty mask is a
writer that never fails. -/
structure GoWriter where
  buf : List Byte
  calls : Nat
  failMask : List Bool
deriving DecidableEq

/-- One `Write` call on the writer double: the new state, and whether the
call returned an error. -/
def GoWriter.write (w : GoWriter) (p : List Byte) : GoWriter × Bool :=
  if w.failMask.getD w.calls false then
    (⟨w.buf, w.calls + 1, w.failMask⟩, true)
  else
    (⟨w.buf ++ p, w.calls + 1, w.failMask⟩, false)

/-- One scripted result of a `Read` call on the input `io.Reader`: either a
successful read delivering `data` with a nil error, or a read returning a
non-EOF error.  An exhausted script models `(0, io.EOF)`. -/
inductive ReadEv where
  | chunk (data : List Byte)
  | rerr
deriving DecidableEq

/-- Result of the block loop of `Signature`: normal termination at EOF with
the accumulated sums and index, a propagated I/O error, or a panic. -/
inductive LoopRes where
  | ok (strongSigs : List (List Byte)) (weak2block : List (Nat × Nat))
  | ioErr
  | panicked
deriving DecidableEq

/-- The block loop of `Signature` (src/signature.go lines 76-96): read a
chunk, break on EOF, propagate a read error; write the weak checksum and
propagate its write error; compute the strong sum with its error discarded
(`strong, _ :=`, line 91) and write it with the write error discarded
(line 92); record the index entry and append the strong sum. -/
def sigLoop (sigType strongLen : Nat) :
    List ReadEv → GoWriter → List (List Byte) → List (Nat × Nat) → GoWriter × LoopRes
  | [], w, sigs, m => (w, LoopRes.ok sigs m)
  | ReadEv.rerr :: _, w, _, _ => (w, LoopRes.ioErr)
  | ReadEv.chunk data :: rest, w, sigs, m =>
    match w.write (be32 (WeakChecksum data)) with
    | (w1, true) => (w1, LoopRes.ioErr)
    | (w1, false) =>
      match CalcStrongSum data sigType strongLen with
      | StrongRes.ok strong =>
        sigLoop sigType strongLen rest (w1.write strong).1 (sigs ++ [strong])
          (mapInsert m (WeakChecksum data) sigs.length)
      | StrongRes.err =>
        sigLoop sigType strongLen rest (w1.write []).1 (sigs ++ [[]])
          (mapInsert m (WeakChecksum data) sigs.length)
      | StrongRes.goPanic => (w1, LoopRes.panicked)

/-- The `switch sigType` of `Signature` selecting the maximal strong length,
`none` for an unrecognized tag. -/
def maxStrongOf (sigType : Nat) : Option Nat :=
  if sigType = BLAKE2_SIG_MAGIC then some BLAKE2_SUM_LENGTH
  else if sigType = MD4_SIG_MAGIC then some MD4_SUM_LENGTH
  else none

/-- Result of `Signature`: a returned `SignatureType`, a returned error
(`nil` result), or a panic. -/
inductive SigResult where
  | ok (sig : SignatureType)
  | err
  | panicked
deriving DecidableEq

/-- Whether a `SigResult` is a successful result. -/
def SigResult.isOk : SigResult → Bool
  | SigResult.ok _ => true
  | _ => false

/-- `Signature` from src/signature.go: validate the tag and strong length,
write the three header fields (propagating write errors), then run the block
loop; the final writer state is returned alongside the Go result. -/
def Signature (events : List ReadEv) (output : GoWriter)
    (blockLen strongLen sigType : Nat) : GoWriter × SigResult :=
  match maxStrongOf sigType with
  | none => (output, SigResult.err)
  | some maxStrongLen =>
    if maxStrongLen < strongLen then (output, SigResult.err)
    else
      match output.write (be32 sigType) with
      | (w1, true) => (w1, SigResult.err)
      | (w1, false) =>
        match w1.write (be32 blockLen) with
        | (w2, true) => (w2, SigResult.err)
        | (w2, false) =>
          match w2.write (be32 strongLen) with
          | (w3, true) => (w3, SigResult.err)
          | (w3, false) =>
            match sigLoop sigType strongLen events w3 [] [] with
            | (w4, LoopRes.ok sigs m) =>
              (w4, SigResult.ok ⟨sigType, blockLen, strongLen, sigs, m⟩)
            | (w4, LoopRes.ioErr) => (w4, SigResult.err)
            | (w4, LoopRes.panicked) => (w4, SigResult.panicked)

/-- Successive `Read` results of a `bytes.Reader` holding `s`, read through a
buffer of `b` bytes: each call delivers `min b remaining` bytes and the
script ends where the reader would answer `(0, io.EOF)`.  `fuel` bounds the
number of reads; for `b ≥ 1` a fuel of `s.length` is always enough, and for
`b = 0` on a nonempty `s` no fuel is (the Go loop would not terminate). -/
def bytesChunksF : Nat → Nat → List Byte → List (List Byte)
  | 0, _, _ => []
  | fuel + 1, b, s => if s = [] then [] else s.take b :: bytesChunksF fuel b (s.drop b)

/-- The chunks a `bytes.Reader` over `s` delivers to the build loop. -/
def bytesChunks (b : Nat) (s : List Byte) : List (List Byte) :=
  bytesChunksF s.length b s

/-- Read script of a `bytes.Reader` over `s`. -/
def bytesEvents (b : Nat) (s : List Byte) : List ReadEv :=
  (bytesChunks b s).map ReadEv.chunk

/-- Building a signature of a concrete byte sequence through a
`bytes.Reader`. -/
def SignatureOfBytes (input : List Byte) (output : GoWriter)
    (blockLen strongLen sigType : Nat) : GoWriter × SigResult :=
  Signature (bytesEvents blockLen input) output blockLen strongLen sigType

/-- The `SignatureType` produced by building over `input` with a fresh
never-failing writer, when the build succeeds. -/
def builtSig (input : List Byte) (blockLen strongLen sigType : Nat) : Option SignatureType :=
  match SignatureOfBytes input ⟨[], 0, []⟩ blockLen strongLen sigType with
  | (_, SigResult.ok sig) => some sig
  | _ => none

/-- The bytes written by building over `input` with a fresh never-failing
writer. -/
def builtBytes (input : List Byte) (blockLen strongLen sigType : Nat) : List Byte :=
  (SignatureOfBytes input ⟨[], 0, []⟩ blockLen strongLen sigType).1.buf

/-- One `binary.Read` of a big-endian `uint32` from a `bytes.Reader`: needs
four bytes; at zero remaining bytes `io.ReadFull` reports `io.EOF`, at one to
three it reports `io.ErrUnexpectedEOF` -- both are `none` here, the EOF case
being distinguished by the caller checking emptiness first. -/
def readU32 : List Byte → Option (Nat × List Byte)
  | a :: b :: c :: d :: rest => some (beVal a b c d, rest)
  | _ => none

/-- The record loop of `ReadSignature` (src/signature.go lines 124-144) over
a `bytes.Reader`: stop successfully on clean EOF where a weak checksum would
begin; read the weak checksum, then one `Read` into a `strongLen`-byte
buffer, failing if that read errors (EOF on an exhausted reader, even for an
empty buffer) or delivers fewer than `strongLen` bytes.  `fuel` bounds the
iterations; every iteration consumes at least four bytes, so a fuel of
`s.length + 1` always suffices. -/
def readRecordsF : Nat → Nat → List Byte → List (List Byte) → List (Nat × Nat) →
    Option (List (List Byte) × List (Nat × Nat))
  | 0, _, _, _, _ => none
  | fuel + 1, strongLen, s, sigs, m =>
    if s = [] then some (sigs, m)
    else
      match readU32 s with
      | none => none
      | some (weak, rest) =>
        if rest = [] then none
        else if rest.length < strongLen then none
        else readRecordsF fuel strongLen (rest.drop strongLen)
            (sigs ++ [rest.take strongLen]) (mapInsert m weak sigs.length)

/-- `ReadSignature` from src/signature.go, over a `bytes.Reader` holding `s`:
read the three header fields (any failure is fatal), then the record loop;
the header values are stored verbatim, without validation. -/
def ReadSignature (s : List Byte) : Option SignatureType :=
  match readU32 s with
  | none => none
  | some (magic, s1) =>
    match readU32 s1 with
    | none => none
    | some (blockLen, s2) =>
      match readU32 s2 with
      | none => none
      | some (strongLen, s3) =>
        match readRecordsF (s3.length + 1) strongLen s3 [] [] with
        | none => none
        | some (sigs, m) =>
          some ⟨magic, blockLen, strongLen, sigs, m⟩

/-- The strong sum actually stored for a block under a recognized
configuration: the first `strongLen` bytes of the native digest. -/
def goodStrong (sigType strongLen : Nat) (data : List Byte) : List Byte :=
  (digestOf sigType data).take strongLen

/-- The serialized record of one block: big-endian weak checksum followed by
the truncated strong sum. -/
def recBytes (sigType strongLen : Nat) (data : List Byte) : List Byte :=
  be32 (WeakChecksum data) ++ goodStrong sigType strongLen data

/-- The serialized record stream of a list of `(weak, strong)` records. -/
def recsBytes (recs : List (Nat × List Byte)) : List Byte :=
  (recs.map (fun r => be32 r.1 ++ r.2)).flatten

/-- Folding the weak-index insertions of a list of blocks, starting at block
index `i`. -/
def insertAll : List (Nat × Nat) → List (List Byte) → Nat → List (Nat × Nat)
  | m, [], _ => m
  | m, c :: rest, i => insertAll (mapInsert m (WeakChecksum c) i) rest (i + 1)

/-- Folding the weak-index insertions of a list of decoded records, starting
at block index `i`. -/
def insertRecords : List (Nat × Nat) → List (Nat × List Byte) → Nat → List (Nat × Nat)
  | m, [], _ => m
  | m, r :: rest, i => insertRecords (mapInsert m r.1 i) rest (i + 1)

/-- Index of the last block in `cs` whose weak checksum is `w`, if any. -/
def lastWeakIdx : List (List Byte) → Nat → Option Nat
  | [], _ => none
  | c :: rest, w =>
    match lastWeakIdx rest w with
    | some j => some (j + 1)
    | none => if WeakChecksum c = w then some 0 else none

/-- A recognized tag with a strong length within its native digest length. -/
abbrev cfgOK (sigType strongLen : Nat) : Prop :=
  (sigType = BLAKE2_SIG_MAGIC ∧ strongLen ≤ BLAKE2_SUM_LENGTH) ∨
  (sigType = MD4_SIG_MAGIC ∧ strongLen ≤ MD4_SUM_LENGTH)

/-- A valid configuration per the spec data model: positive strong length,
recognized tag, strong length within the native digest length. -/
abbrev validCfg (sigType strongLen : Nat) : Prop :=
  1 ≤ strongLen ∧ cfgOK sigType strongLen

/-- Native digest length of a recognized algorithm tag. -/
def nativeLen (sigType : Nat) : Nat :=
  if sigType = BLAKE2_SIG_MAGIC then BLAKE2_SUM_LENGTH else MD4_SUM_LENGTH

/-! ### Serialization and strong-sum basics -/

theorem be32_length (x : Nat) : (be32 x).length = 4 := by
  simp [be32]

theorem readU32_be32 (x : Nat) (r : List Byte) :
    readU32 (be32 x ++ r) = some (x % 2 ^ 32, r) := by
  simp [be32, readU32, beVal]
  omega

theorem md4_ne_blake2 : MD4_SIG_MAGIC ≠ BLAKE2_SIG_MAGIC := by decide

theorem blake2bSum256_length (d : List Byte) : (blake2bSum256 d).length = 32 := by
  simp [blake2bSum256]

theorem md4Sum_length (d : List Byte) : (md4Sum d).length = 16 := by
  simp [md4Sum]

theorem goodStrong_length {σ ℓ : Nat} (hσ : cfgOK σ ℓ) (d : List Byte) :
    (goodStrong σ ℓ d).length = ℓ := by
  rcases hσ with ⟨h1, h2⟩ | ⟨h1, h2⟩ <;> subst h1 <;>
    simp [goodStrong, digestOf, md4_ne_blake2, blake2bSum256_length, md4Sum_length,
      BLAKE2_SUM_LENGTH, MD4_SUM_LENGTH] at h2 ⊢ <;> omega

theorem calcStrongSum_ok {σ ℓ : Nat} (hσ : cfgOK σ ℓ) (d : List Byte) :
    CalcStrongSum d σ ℓ = StrongRes.ok (goodStrong σ ℓ d) := by
  rcases hσ with ⟨h1, h2⟩ | ⟨h1, h2⟩ <;> subst h1 <;>
    simp [CalcStrongSum, goodStrong, digestOf, md4_ne_blake2, h2]

theorem weakChecksum_lt (d : List Byte) : WeakChecksum d < 2 ^ 32 :=
  Nat.mod_lt _ (by norm_num)

theorem recBytes_length {σ ℓ : Nat} (hσ : cfgOK σ ℓ) (d : List Byte) :
    (recBytes σ ℓ d).length = 4 + ℓ := by
  simp [recBytes, be32_length, goodStrong_length hσ]

/-! ### Association-list map lemmas -/

theorem mapGet_cons (a : Nat × Nat) (t : List (Nat × Nat)) (k2 : Nat) :
    mapGet (a :: t) k2 = if a.1 = k2 then some a.2 else mapGet t k2 := by
  by_cases h : a.1 = k2 <;> simp [mapGet, List.find?_cons, h]

theorem filter_ne_cons (a : Nat × Nat) (t : List (Nat × Nat)) (k : Nat) :
    (a :: t).filter (fun p => p.1 != k) =
      if a.1 = k then t.filter (fun p => p.1 != k)
      else a :: t.filter (fun p => p.1 != k) := by
  by_cases h : a.1 = k <;> simp [List.filter_cons, h]

theorem mapGet_filter_ne (m : List (Nat × Nat)) (k k2 : Nat) (h : k2 ≠ k) :
    mapGet (m.filter (fun p => p.1 != k)) k2 = mapGet m k2 := by
  induction m with
  | nil => rfl
  | cons a t ih =>
    rw [filter_ne_cons]
    by_cases ha : a.1 = k
    · rw [if_pos ha, ih, mapGet_cons, if_neg (by rw [ha]; exact fun hh => h hh.symm)]
    · rw [if_neg ha, mapGet_cons, mapGet_cons, ih]

theorem mapGet_mapInsert_self (m : List (Nat × Nat)) (k v : Nat) :
    mapGet (mapInsert m k v) k = some v := by
  rw [mapInsert, mapGet_cons, if_pos rfl]

theorem mapGet_mapInsert_ne (m : List (Nat × Nat)) (k v k2 : Nat) (h : k2 ≠ k) :
    mapGet (mapInsert m k v) k2 = mapGet m k2 := by
  rw [mapInsert, mapGet_cons, if_neg (fun hh => h hh.symm), mapGet_filter_ne m k k2 h]

/-! ### Characterization of the build path on a never-failing writer -/

theorem sigLoop_noFail {σ ℓ : Nat} (hσ : cfgOK σ ℓ) :
    ∀ (cs : List (List Byte)) (buf : List Byte) (calls : Nat)
      (sigs : List (List Byte)) (m : List (Nat × Nat)),
    sigLoop σ ℓ (cs.map ReadEv.chunk) ⟨buf, calls, []⟩ sigs m =
      (⟨buf ++ (cs.map (recBytes σ ℓ)).flatten, calls + 2 * cs.length, []⟩,
       LoopRes.ok (sigs ++ cs.map (goodStrong σ ℓ)) (insertAll m cs sigs.length)) := by
  intro cs
  induction cs with
  | nil => intro buf calls sigs m; simp [sigLoop, insertAll]
  | cons c rest ih =>
    intro buf calls sigs m
    rw [List.map_cons]
    simp only [sigLoop, GoWriter.write, List.getD_nil, if_neg (Bool.false_ne_true),
      calcStrongSum_ok hσ]
    rw [ih]
    simp [insertAll, recBytes, List.append_assoc]
    omega

theorem SignatureOfBytes_noFail {σ ℓ : Nat} (hσ : cfgOK σ ℓ) (s : List Byte) (b : Nat) :
    SignatureOfBytes s ⟨[], 0, []⟩ b ℓ σ =
      (⟨be32 σ ++ be32 b ++ be32 ℓ ++ ((bytesChunks b s).map (recBytes σ ℓ)).flatten,
        3 + 2 * (bytesChunks b s).length, []⟩,
       SigResult.ok ⟨σ, b, ℓ, (bytesChunks b s).map (goodStrong σ ℓ),
         insertAll [] (bytesChunks b s) 0⟩) := by
  have hmax : maxStrongOf σ = some (nativeLen σ) ∧ ¬ (nativeLen σ < ℓ) := by
    rcases hσ with ⟨h1, h2⟩ | ⟨h1, h2⟩ <;> subst h1 <;>
      simp [maxStrongOf, nativeLen, md4_ne_blake2, Nat.not_lt] <;> exact h2
  rw [SignatureOfBytes, bytesEvents, Signature, hmax.1]
  simp only [if_neg hmax.2, GoWriter.write, List.getD_nil, if_neg (Bool.false_ne_true)]
  rw [sigLoop_noFail hσ]
  simp [List.append_assoc]

theorem builtSig_eq {σ ℓ : Nat} (hσ : cfgOK σ ℓ) (s : List Byte) (b : Nat) :
    builtSig s b ℓ σ =
      some ⟨σ, b, ℓ, (bytesChunks b s).map (goodStrong σ ℓ),
        insertAll [] (bytesChunks b s) 0⟩ := by
  rw [builtSig, SignatureOfBytes_noFail hσ]

theorem builtBytes_eq {σ ℓ : Nat} (hσ : cfgOK σ ℓ) (s : List Byte) (b : Nat) :
    builtBytes s b ℓ σ =
      be32 σ ++ be32 b ++ be32 ℓ ++ ((bytesChunks b s).map (recBytes σ ℓ)).flatten := by
  rw [builtBytes, SignatureOfBytes_noFail hσ]

/-! ### Error paths of the build loop -/

theorem sigLoop_rerr {σ ℓ : Nat} (hσ : cfgOK σ ℓ) :
    ∀ (pre : List (List Byte)) (post : List ReadEv) (buf : List Byte) (calls : Nat)
      (sigs : List (List Byte)) (m : List (Nat × Nat)),
    (sigLoop σ ℓ (pre.map ReadEv.chunk ++ ReadEv.rerr :: post) ⟨buf, calls, []⟩ sigs m).2 =
      LoopRes.ioErr := by
  intro pre
  induction pre with
  | nil => intro post buf calls sigs m; simp [sigLoop]
  | cons c rest ih =>
    intro post buf calls sigs m
    simp only [List.map_cons, List.cons_append, sigLoop, GoWriter.write, List.getD_nil,
      if_neg (Bool.false_ne_true), calcStrongSum_ok hσ]
    exact ih post _ _ _ _

theorem getD_mask (n : Nat) (rest : List Bool) :
    ∀ i, (List.replicate n false ++ rest).getD i false =
      if i < n then false else rest.getD (i - n) false := by
  induction n with
  | zero => intro i; simp
  | succ n ih =>
    intro i
    cases i with
    | zero => simp [List.replicate_succ]
    | succ i =>
      simp only [List.replicate_succ, List.cons_append, List.getD_cons_succ, ih i]
      by_cases h : i < n
      · rw [if_pos h, if_pos (by omega)]
      · rw [if_neg h, if_neg (by omega), Nat.succ_sub_succ]

theorem sigLoop_weakFail {σ ℓ : Nat} (hσ : cfgOK σ ℓ) :
    ∀ (k : Nat) (cs : List (List Byte)) (buf : List Byte) (calls : Nat) (mask : List Bool)
      (sigs : List (List Byte)) (m : List (Nat × Nat)),
    k < cs.length →
    (∀ i, i < 2 * k → mask.getD (calls + i) false = false) →
    mask.getD (calls + 2 * k) false = true →
    (sigLoop σ ℓ (cs.map ReadEv.chunk) ⟨buf, calls, mask⟩ sigs m).2 = LoopRes.ioErr := by
  intro k
  induction k with
  | zero =>
    intro cs buf calls mask sigs m hk h0 h1
    match cs, hk with
    | c :: rest, _ =>
      have h1' : mask.getD calls false = true := by simpa using h1
      simp at h1'
      simp [List.map_cons, sigLoop, GoWriter.write, h1']
  | succ k ih =>
    intro cs buf calls mask sigs m hk h0 h1
    match cs, hk with
    | c :: rest, hk2 =>
      have hw : mask.getD calls false = false := by simpa using h0 0 (by omega)
      have hs : mask.getD (calls + 1) false = false := h0 1 (by omega)
      have hk' : k < rest.length := by simp only [List.length_cons] at hk2; omega
      simp at hw hs
      simp only [List.map_cons, sigLoop, GoWriter.write, calcStrongSum_ok hσ]
      simp [hw, hs]
      apply ih rest _ _ mask _ _ hk'
      · intro i hi
        have := h0 (i + 2) (by omega)
        rw [show calls + (i + 2) = calls + 1 + 1 + i by omega] at this
        exact this
      · have := h1
        rw [show calls + 2 * (k + 1) = calls + 1 + 1 + 2 * k by omega] at this
        exact this

theorem sigLoop_strongIgnored {σ ℓ : Nat} (hσ : cfgOK σ ℓ) :
    ∀ (cs : List (List Byte)) (buf : List Byte) (calls : Nat) (mask : List Bool)
      (sigs : List (List Byte)) (m : List (Nat × Nat)),
    (∀ i, mask.getD (calls + 2 * i) false = false) →
    (sigLoop σ ℓ (cs.map ReadEv.chunk) ⟨buf, calls, mask⟩ sigs m).2 =
      LoopRes.ok (sigs ++ cs.map (goodStrong σ ℓ)) (insertAll m cs sigs.length) := by
  intro cs
  induction cs with
  | nil => intro buf calls mask sigs m hmask; simp [sigLoop, insertAll]
  | cons c rest ih =>
    intro buf calls mask sigs m hmask
    have hw : mask.getD calls false = false := by simpa using hmask 0
    have hmask' : ∀ i, mask.getD (calls + 1 + 1 + 2 * i) false = false := by
      intro i
      have := hmask (i + 1)
      rw [show calls + 2 * (i + 1) = calls + 1 + 1 + 2 * i by omega] at this
      exact this
    simp at hw
    simp only [List.map_cons, sigLoop, GoWriter.write, calcStrongSum_ok hσ]
    simp [hw]
    by_cases hs : mask.getD (calls + 1) false = true
    · simp at hs
      rw [if_pos hs, ih _ _ mask _ _ hmask']
      simp [insertAll]
    · simp at hs
      rw [if_neg (by simp [hs]), ih _ _ mask _ _ hmask']
      simp [insertAll]

/-! ### Chunking of a bytes.Reader -/

theorem bytesChunksF_nil (fuel b : Nat) : bytesChunksF fuel b [] = [] := by
  cases fuel <;> simp [bytesChunksF]

theorem bytesChunksF_ne_nil {fuel b : Nat} {s : List Byte} (hs : s ≠ []) (hf : 1 ≤ fuel) :
    bytesChunksF fuel b s ≠ [] := by
  match fuel, hf with
  | f + 1, _ => simp [bytesChunksF, hs]

theorem bytesChunksF_length {b : Nat} (hb : 1 ≤ b) :
    ∀ (fuel : Nat) (s : List Byte), s.length ≤ fuel →
      (bytesChunksF fuel b s).length = (s.length + b - 1) / b := by
  intro fuel
  induction fuel with
  | zero =>
    intro s hs
    have h0 : s = [] := List.eq_nil_of_length_eq_zero (Nat.le_zero.mp hs)
    subst h0
    simp [bytesChunksF]
    symm
    exact Nat.div_eq_of_lt (by omega)
  | succ f ih =>
    intro s hs
    by_cases hnil : s = []
    · subst hnil
      simp [bytesChunksF]
      symm
      exact Nat.div_eq_of_lt (by omega)
    · have hlen : 1 ≤ s.length := List.length_pos.mpr hnil
      simp only [bytesChunksF, if_neg hnil, List.length_cons]
      rw [ih (s.drop b) (by simp [List.length_drop]; omega)]
      simp only [List.length_drop]
      by_cases hbl : b ≤ s.length
      · rw [show s.length + b - 1 = (s.length - 1) + b by omega,
          Nat.add_div_right _ (by omega)]
        congr 2
        omega
      · rw [show s.length - b = 0 by omega]
        rw [Nat.div_eq_of_lt (by omega)]
        symm
        exact Nat.div_eq_of_lt_le (by omega) (by omega)

theorem bytesChunksF_flatten {b : Nat} (hb : 1 ≤ b) :
    ∀ (fuel : Nat) (s : List Byte), s.length ≤ fuel →
      (bytesChunksF fuel b s).flatten = s := by
  intro fuel
  induction fuel with
  | zero =>
    intro s hs
    have h0 : s = [] := List.eq_nil_of_length_eq_zero (Nat.le_zero.mp hs)
    subst h0
    simp [bytesChunksF]
  | succ f ih =>
    intro s hs
    by_cases hnil : s = []
    · subst hnil; simp [bytesChunksF]
    · simp only [bytesChunksF, if_neg hnil, List.flatten_cons]
      rw [ih (s.drop b) (by simp [List.length_drop]; omega), List.take_append_drop]

theorem bytesChunksF_mem {b : Nat} (hb : 1 ≤ b) :
    ∀ (fuel : Nat) (s : List Byte), s.length ≤ fuel →
      ∀ c ∈ bytesChunksF fuel b s, c ≠ [] ∧ c.length ≤ b := by
  intro fuel
  induction fuel with
  | zero =>
    intro s hs
    have h0 : s = [] := List.eq_nil_of_length_eq_zero (Nat.le_zero.mp hs)
    subst h0
    simp [bytesChunksF]
  | succ f ih =>
    intro s hs c hc
    by_cases hnil : s = []
    · subst hnil; simp [bytesChunksF] at hc
    · have hlen : 1 ≤ s.length := List.length_pos.mpr hnil
      simp only [bytesChunksF, if_neg hnil, List.mem_cons] at hc
      rcases hc with hc | hc
      · subst hc
        constructor
        · have : (s.take b).length = min b s.length := List.length_take b s
          intro hh
          rw [hh] at this
          simp at this
          omega
        · exact List.length_take_le b s
      · exact ih (s.drop b) (by simp [List.length_drop]; omega) c hc

theorem bytesChunksF_getLast {b : Nat} (hb : 1 ≤ b) :
    ∀ (fuel : Nat) (s : List Byte), s.length ≤ fuel → s ≠ [] →
      ((bytesChunksF fuel b s).getLast?).map List.length =
        some (if s.length % b = 0 then b else s.length % b) := by
  intro fuel
  induction fuel with
  | zero =>
    intro s hs hnil
    exact absurd (List.eq_nil_of_length_eq_zero (Nat.le_zero.mp hs)) hnil
  | succ f ih =>
    intro s hs hnil
    have hlen : 1 ≤ s.length := List.length_pos.mpr hnil
    simp only [bytesChunksF, if_neg hnil]
    by_cases hd : s.drop b = []
    · have hble : s.length ≤ b := by
        have := List.length_drop b s
        rw [hd] at this
        simp at this
        omega
      rw [hd, bytesChunksF_nil]
      simp only [List.getLast?_singleton, Option.map_some']
      rw [List.length_take]
      by_cases heq : s.length = b
      · rw [heq]
        simp [Nat.mod_self]
      · have hlt : s.length < b := by omega
        rw [Nat.mod_eq_of_lt hlt, if_neg (by omega)]
        congr 1
        omega
    · have hblt : b < s.length := by
        by_contra hcon
        exact hd (List.drop_eq_nil_of_le (by omega))
      have htail : bytesChunksF f b (s.drop b) ≠ [] :=
        bytesChunksF_ne_nil hd (by
          have := List.length_drop b s
          have h1 : 1 ≤ (s.drop b).length := List.length_pos.mpr hd
          omega)
      obtain ⟨c2, t2, ht2⟩ := List.exists_cons_of_ne_nil htail
      rw [ht2]
      rw [List.getLast?_cons_cons]
      rw [← ht2, ih (s.drop b) (by simp [List.length_drop]; omega) hd]
      simp only [List.length_drop]
      rw [show s.length - b = s.length - b by rfl]
      have hmod : (s.length - b) % b = s.length % b := by
        conv_rhs => rw [show s.length = (s.length - b) + b by omega]
        rw [Nat.add_mod_right]
      rw [hmod]

/-! ### Decoding lemmas -/

theorem recsBytes_cons (r : Nat × List Byte) (rest : List (Nat × List Byte)) :
    recsBytes (r :: rest) = be32 r.1 ++ (r.2 ++ recsBytes rest) := by
  simp [recsBytes, List.append_assoc]

theorem length_le_recsBytes (recs : List (Nat × List Byte)) :
    recs.length ≤ (recsBytes recs).length := by
  induction recs with
  | nil => simp [recsBytes]
  | cons r rest ih =>
    rw [recsBytes_cons]
    simp only [List.length_append, List.length_cons, be32_length]
    omega

theorem readRecordsF_complete {ℓ : Nat} (hℓ : 1 ≤ ℓ) :
    ∀ (recs : List (Nat × List Byte)) (fuel : Nat) (sigs : List (List Byte))
      (m : List (Nat × Nat)),
    (∀ r ∈ recs, r.1 < 2 ^ 32 ∧ r.2.length = ℓ) → recs.length < fuel →
    readRecordsF fuel ℓ (recsBytes recs) sigs m =
      some (sigs ++ recs.map Prod.snd, insertRecords m recs sigs.length) := by
  intro recs
  induction recs with
  | nil =>
    intro fuel sigs m hr hf
    match fuel, hf with
    | f + 1, _ => simp [recsBytes, readRecordsF, insertRecords]
  | cons r rest ih =>
    intro fuel sigs m hr hf
    match fuel, hf with
    | f + 1, hf2 =>
      have hr1 := hr r (List.mem_cons_self r rest)
      rw [recsBytes_cons]
      have hne : be32 r.1 ++ (r.2 ++ recsBytes rest) ≠ [] := by simp [be32]
      have hne2 : r.2 ++ recsBytes rest ≠ [] := by
        intro hh
        rcases List.append_eq_nil.mp hh with ⟨h1, _⟩
        rw [h1] at hr1
        simp at hr1
        omega
      have hlen : ¬ ((r.2 ++ recsBytes rest).length < ℓ) := by
        simp only [List.length_append]
        omega
      simp only [readRecordsF, if_neg hne, readU32_be32, Nat.mod_eq_of_lt hr1.1,
        if_neg hne2, if_neg hlen]
      have htake : (r.2 ++ recsBytes rest).take ℓ = r.2 := by
        rw [← hr1.2]
        exact List.take_left r.2 (recsBytes rest)
      have hdrop : (r.2 ++ recsBytes rest).drop ℓ = recsBytes rest := by
        rw [← hr1.2]
        exact List.drop_left r.2 (recsBytes rest)
      rw [htake, hdrop]
      rw [ih f (sigs ++ [r.2]) (mapInsert m r.1 sigs.length)
        (fun q hq => hr q (List.mem_cons_of_mem r hq))
        (by simp at hf2 ⊢; omega)]
      simp [insertRecords, List.append_assoc]

theorem readRecordsF_truncated {ℓ w : Nat} {t : List Byte} (ht : t.length < ℓ) :
    ∀ (recs : List (Nat × List Byte)) (fuel : Nat) (sigs : List (List Byte))
      (m : List (Nat × Nat)),
    (∀ r ∈ recs, r.2.length = ℓ) →
    readRecordsF fuel ℓ (recsBytes recs ++ (be32 w ++ t)) sigs m = none := by
  intro recs
  induction recs with
  | nil =>
    intro fuel sigs m hr
    cases fuel with
    | zero => rfl
    | succ f =>
      have hnil : recsBytes ([] : List (Nat × List Byte)) = [] := by simp [recsBytes]
      rw [hnil, List.nil_append]
      have hne : be32 w ++ t ≠ [] := by simp [be32]
      simp only [readRecordsF, if_neg hne, readU32_be32]
      by_cases htn : t = []
      · rw [if_pos htn]
      · rw [if_neg htn, if_pos ht]
  | cons r rest ih =>
    intro fuel sigs m hr
    cases fuel with
    | zero => rfl
    | succ f =>
      have hr1 := hr r (List.mem_cons_self r rest)
      rw [recsBytes_cons]
      rw [List.append_assoc (be32 r.1) (r.2 ++ recsBytes rest) (be32 w ++ t),
        List.append_assoc r.2 (recsBytes rest) (be32 w ++ t)]
      have hne : be32 r.1 ++ (r.2 ++ (recsBytes rest ++ (be32 w ++ t))) ≠ [] := by
        simp [be32]
      have hne2 : r.2 ++ (recsBytes rest ++ (be32 w ++ t)) ≠ [] := by
        simp [be32]
      have hlen : ¬ ((r.2 ++ (recsBytes rest ++ (be32 w ++ t))).length < ℓ) := by
        simp only [List.length_append]
        omega
      simp only [readRecordsF, if_neg hne, readU32_be32, if_neg hne2, if_neg hlen]
      have htake : (r.2 ++ (recsBytes rest ++ (be32 w ++ t))).take ℓ = r.2 := by
        rw [← hr1]
        exact List.take_left r.2 (recsBytes rest ++ (be32 w ++ t))
      have hdrop : (r.2 ++ (recsBytes rest ++ (be32 w ++ t))).drop ℓ =
          recsBytes rest ++ (be32 w ++ t) := by
        rw [← hr1]
        exact List.drop_left r.2 (recsBytes rest ++ (be32 w ++ t))
      rw [htake, hdrop]
      exact ih f (sigs ++ [r.2]) (mapInsert m (r.1 % 2 ^ 32) sigs.length)
        (fun q hq => hr q (List.mem_cons_of_mem r hq))

theorem ReadSignature_complete (a bl ℓ : Nat) (recs : List (Nat × List Byte))
    (ha : a < 2 ^ 32) (hb : bl < 2 ^ 32) (hl32 : ℓ < 2 ^ 32)
    (h0 : 1 ≤ ℓ ∨ recs = [])
    (hr : ∀ r ∈ recs, r.1 < 2 ^ 32 ∧ r.2.length = ℓ) :
    ReadSignature (be32 a ++ (be32 bl ++ (be32 ℓ ++ recsBytes recs))) =
      some ⟨a, bl, ℓ, recs.map Prod.snd, insertRecords [] recs 0⟩ := by
  simp only [ReadSignature, readU32_be32, Nat.mod_eq_of_lt ha, Nat.mod_eq_of_lt hb,
    Nat.mod_eq_of_lt hl32]
  rcases h0 with hℓ | hnil
  · rw [readRecordsF_complete hℓ recs _ [] []
      hr (by have := length_le_recsBytes recs; omega)]
    simp
  · subst hnil
    simp [recsBytes, readRecordsF, insertRecords]

theorem ReadSignature_truncated (a bl ℓ w : Nat) (recs : List (Nat × List Byte))
    (t : List Byte) (hl32 : ℓ < 2 ^ 32) (ht : t.length < ℓ)
    (hr : ∀ r ∈ recs, r.2.length = ℓ) :
    ReadSignature (be32 a ++ (be32 bl ++ (be32 ℓ ++ (recsBytes recs ++ (be32 w ++ t))))) =
      none := by
  simp only [ReadSignature, readU32_be32, Nat.mod_eq_of_lt hl32]
  rw [readRecordsF_truncated ht recs _ [] [] hr]

/-! ### Index and lookup lemmas -/

theorem insertRecords_map_chunks (σ ℓ : Nat) :
    ∀ (cs : List (List Byte)) (m : List (Nat × Nat)) (i : Nat),
    insertRecords m (cs.map (fun c => (WeakChecksum c, goodStrong σ ℓ c))) i =
      insertAll m cs i := by
  intro cs
  induction cs with
  | nil => intro m i; rfl
  | cons c rest ih => intro m i; simp only [List.map_cons, insertRecords, insertAll, ih]

theorem recsBytes_map_chunks (σ ℓ : Nat) (cs : List (List Byte)) :
    recsBytes (cs.map (fun c => (WeakChecksum c, goodStrong σ ℓ c))) =
      (cs.map (recBytes σ ℓ)).flatten := by
  simp only [recsBytes, List.map_map]
  rfl

theorem lastWeakIdx_lt_length {w j : Nat} :
    ∀ {cs : List (List Byte)}, lastWeakIdx cs w = some j → j < cs.length := by
  intro cs
  induction cs generalizing j with
  | nil => intro h; simp [lastWeakIdx] at h
  | cons c rest ih =>
    intro h
    cases hr : lastWeakIdx rest w with
    | some j2 =>
      rw [lastWeakIdx, hr] at h
      have hj : j = j2 + 1 := by simpa using h.symm
      subst hj
      have := ih hr
      simp only [List.length_cons]
      omega
    | none =>
      rw [lastWeakIdx, hr] at h
      by_cases hcw : WeakChecksum c = w
      · rw [if_pos hcw] at h
        have hj : j = 0 := by simpa using h.symm
        subst hj
        simp
      · rw [if_neg hcw] at h
        exact absurd h (by simp)

theorem mapGet_insertAll_none {w : Nat} :
    ∀ {cs : List (List Byte)} (m : List (Nat × Nat)) (i0 : Nat),
    lastWeakIdx cs w = none → mapGet (insertAll m cs i0) w = mapGet m w := by
  intro cs
  induction cs with
  | nil => intro m i0 _; rfl
  | cons c rest ih =>
    intro m i0 h
    cases hr : lastWeakIdx rest w with
    | some j2 => rw [lastWeakIdx, hr] at h; exact absurd h (by simp)
    | none =>
      rw [lastWeakIdx, hr] at h
      by_cases hcw : WeakChecksum c = w
      · rw [if_pos hcw] at h; exact absurd h (by simp)
      · rw [insertAll, ih _ _ hr]
        exact mapGet_mapInsert_ne m _ i0 w (fun hh => hcw hh.symm)

theorem mapGet_insertAll_some {w j : Nat} :
    ∀ {cs : List (List Byte)} (m : List (Nat × Nat)) (i0 : Nat),
    lastWeakIdx cs w = some j → mapGet (insertAll m cs i0) w = some (i0 + j) := by
  intro cs
  induction cs generalizing j with
  | nil => intro m i0 h; simp [lastWeakIdx] at h
  | cons c rest ih =>
    intro m i0 h
    cases hr : lastWeakIdx rest w with
    | some j2 =>
      rw [lastWeakIdx, hr] at h
      have hj : j = j2 + 1 := by simpa using h.symm
      subst hj
      rw [insertAll, ih _ _ hr]
      congr 1
      omega
    | none =>
      rw [lastWeakIdx, hr] at h
      by_cases hcw : WeakChecksum c = w
      · rw [if_pos hcw] at h
        have hj : j = 0 := by simpa using h.symm
        subst hj
        rw [insertAll, mapGet_insertAll_none _ _ hr]
        rw [← hcw, mapGet_mapInsert_self]
        simp
      · rw [if_neg hcw] at h
        exact absurd h (by simp)

theorem get?_eq_some_getD :
    ∀ (cs : List (List Byte)) (i : Nat), i < cs.length → cs.get? i = some (cs.getD i []) := by
  intro cs
  induction cs with
  | nil => intro i h; simp at h
  | cons c rest ih =>
    intro i h
    cases i with
    | zero => rfl
    | succ i =>
      simp only [List.get?_cons_succ, List.getD_cons_succ]
      exact ih i (by simpa using h)

theorem get?_map_goodStrong (σ ℓ : Nat) :
    ∀ (cs : List (List Byte)) (i : Nat),
    (cs.map (goodStrong σ ℓ)).get? i = (cs.get? i).map (goodStrong σ ℓ)
  | [], i => by cases i <;> rfl
  | c :: rest, 0 => rfl
  | c :: rest, i + 1 => by
    simp only [List.map_cons, List.get?_cons_succ]
    exact get?_map_goodStrong σ ℓ rest i

/-! ### Claim theorems, witnesses and counterexamples -/


theorem chunkRecs_wf {σ ℓ : Nat} (hσ : cfgOK σ ℓ) (cs : List (List Byte)) :
    ∀ r ∈ cs.map (fun c => (WeakChecksum c, goodStrong σ ℓ c)),
      r.1 < 2 ^ 32 ∧ r.2.length = ℓ := by
  intro r hr
  obtain ⟨c, _, rfl⟩ := List.mem_map.mp hr
  exact ⟨weakChecksum_lt c, goodStrong_length hσ c⟩

theorem sigMagic_lt {σ ℓ : Nat} (hσ : cfgOK σ ℓ) : σ < 2 ^ 32 := by
  rcases hσ with ⟨h1, _⟩ | ⟨h1, _⟩ <;> subst h1 <;> decide

theorem strongLen_lt {σ ℓ : Nat} (hσ : cfgOK σ ℓ) : ℓ < 2 ^ 32 := by
  rcases hσ with ⟨_, h2⟩ | ⟨_, h2⟩ <;>
    simp [BLAKE2_SUM_LENGTH, MD4_SUM_LENGTH] at h2 <;> omega

theorem decode_built {σ ℓ : Nat} (hσ : cfgOK σ ℓ) (hℓ : 1 ≤ ℓ) (s : List Byte)
    (b : Nat) (hb32 : b < 2 ^ 32) :
    ReadSignature (builtBytes s b ℓ σ) =
      some ⟨σ, b, ℓ, (bytesChunks b s).map (goodStrong σ ℓ),
        insertAll [] (bytesChunks b s) 0⟩ := by
  rw [builtBytes_eq hσ]
  rw [← recsBytes_map_chunks σ ℓ]
  rw [show be32 σ ++ be32 b ++ be32 ℓ ++
        recsBytes ((bytesChunks b s).map (fun c => (WeakChecksum c, goodStrong σ ℓ c))) =
      be32 σ ++ (be32 b ++ (be32 ℓ ++
        recsBytes ((bytesChunks b s).map (fun c => (WeakChecksum c, goodStrong σ ℓ c)))))
    from by simp [List.append_assoc]]
  rw [ReadSignature_complete σ b ℓ _ (sigMagic_lt hσ) hb32 (strongLen_lt hσ)
    (Or.inl hℓ) (chunkRecs_wf hσ _)]
  rw [insertRecords_map_chunks]
  simp [List.map_map]

/-- C1: for any basis bytes and any valid configuration (block length at
least one, positive strong length within the native digest length, recognized
tag), decoding the byte stream written by the build yields exactly the
`SignatureType` the build returned: the same `strongSigs` in the same order
and the same `weak2block` contents. -/
theorem claim1_roundtrip (s : List Byte) (b ℓ σ : Nat)
    (hv : validCfg σ ℓ) (_hb : 1 ≤ b) (hb32 : b < 2 ^ 32) :
    ReadSignature (builtBytes s b ℓ σ) = builtSig s b ℓ σ ∧
    (builtSig s b ℓ σ).isSome = true := by
  obtain ⟨hℓ, hσ⟩ := hv
  constructor
  · rw [decode_built hσ hℓ s b hb32, builtSig_eq hσ]
  · rw [builtSig_eq hσ]
    rfl

/-- Witness for C1 at a concrete input. -/
theorem claim1_roundtrip_witness :
    ReadSignature (builtBytes [1, 2, 3, 4, 5] 2 3 MD4_SIG_MAGIC) =
      builtSig [1, 2, 3, 4, 5] 2 3 MD4_SIG_MAGIC ∧
    (builtSig [1, 2, 3, 4, 5] 2 3 MD4_SIG_MAGIC).isSome = true :=
  claim1_roundtrip [1, 2, 3, 4, 5] 2 3 MD4_SIG_MAGIC (by decide) (by decide) (by decide)



/-- C6: the build validates the tag and strong length before any I/O; on an
unrecognized tag, or a strong length above the native digest length, it
returns an error with the writer untouched (no header bytes) and without
reading any input event. -/
theorem claim6_validatesFirst (events : List ReadEv) (w : GoWriter) (b ℓ σ : Nat)
    (hσ32 : σ < 2 ^ 32)
    (hbad : (σ ≠ BLAKE2_SIG_MAGIC ∧ σ ≠ MD4_SIG_MAGIC) ∨
      (σ = BLAKE2_SIG_MAGIC ∧ BLAKE2_SUM_LENGTH < ℓ) ∨
      (σ = MD4_SIG_MAGIC ∧ MD4_SUM_LENGTH < ℓ)) :
    Signature events w b ℓ σ = (w, SigResult.err) := by
  rcases hbad with ⟨h1, h2⟩ | ⟨h1, h2⟩ | ⟨h1, h2⟩
  · simp [Signature, maxStrongOf, h1, h2]
  · subst h1
    simp [Signature, maxStrongOf, h2]
  · subst h1
    simp [Signature, maxStrongOf, md4_ne_blake2, h2]

/-- Witness for C6 at a concrete unrecognized tag. -/
theorem claim6_validatesFirst_witness :
    Signature [ReadEv.chunk [1]] ⟨[], 0, []⟩ 4 16 19088743 = (⟨[], 0, []⟩, SigResult.err) :=
  claim6_validatesFirst [ReadEv.chunk [1]] ⟨[], 0, []⟩ 4 16 19088743 (by decide)
    (Or.inl (by decide))

theorem flatten_recBytes_length {σ ℓ : Nat} (hσ : cfgOK σ ℓ) :
    ∀ cs : List (List Byte), ((cs.map (recBytes σ ℓ)).flatten).length = cs.length * (4 + ℓ)
  | [] => by simp
  | c :: rest => by
    simp only [List.map_cons, List.flatten_cons, List.length_append, List.length_cons,
      recBytes_length hσ, flatten_recBytes_length hσ rest]
    ring

/-- C7: for input of length L and block length B at least one, the build
processes exactly the ceiling of L/B blocks (that many strong sums and that
many serialized records), zero for empty input, and the final block has
length L mod B, or B itself when B divides a positive L. -/
theorem claim7_blockPartition (s : List Byte) (b ℓ σ : Nat)
    (hv : validCfg σ ℓ) (hb : 1 ≤ b) :
    ((builtSig s b ℓ σ).map (fun g => g.strongSigs.length) =
      some ((s.length + b - 1) / b)) ∧
    (s = [] → builtSig s b ℓ σ = some ⟨σ, b, ℓ, [], []⟩) ∧
    (s ≠ [] → ((bytesChunks b s).getLast?).map List.length =
      some (if s.length % b = 0 then b else s.length % b)) ∧
    (builtBytes s b ℓ σ).length = 12 + ((s.length + b - 1) / b) * (4 + ℓ) := by
  obtain ⟨hℓ, hσ⟩ := hv
  refine ⟨?_, ?_, ?_, ?_⟩
  · rw [builtSig_eq hσ]
    simp only [Option.map_some', List.length_map]
    rw [show (bytesChunks b s).length = (s.length + b - 1) / b from
      bytesChunksF_length hb s.length s le_rfl]
  · intro hnil
    subst hnil
    rw [builtSig_eq hσ]
    rfl
  · intro hnil
    exact bytesChunksF_getLast hb s.length s le_rfl hnil
  · rw [builtBytes_eq hσ]
    simp only [List.length_append, be32_length, flatten_recBytes_length hσ]
    rw [show (bytesChunks b s).length = (s.length + b - 1) / b from
      bytesChunksF_length hb s.length s le_rfl]

/-- C8: the build consumes the input in successive chunks of at most the
block length, every chunk (including a short final one) is nonempty and
yields exactly one record, and no data is dropped: the chunks concatenate
back to the input. -/
theorem claim8_chunkLoop (s : List Byte) (b ℓ σ : Nat)
    (hv : validCfg σ ℓ) (hb : 1 ≤ b) :
    ((bytesChunks b s).all (fun c => !c.isEmpty && decide (c.length ≤ b)) = true) ∧
    (bytesChunks b s).flatten = s ∧
    ((builtSig s b ℓ σ).map (fun g => g.strongSigs.length) =
      some (bytesChunks b s).length) := by
  obtain ⟨hℓ, hσ⟩ := hv
  refine ⟨?_, ?_, ?_⟩
  · rw [List.all_eq_true]
    intro c hc
    have hmem := bytesChunksF_mem hb s.length s le_rfl c hc
    simp [List.isEmpty_iff, hmem.1, hmem.2]
  · exact bytesChunksF_flatten hb s.length s le_rfl
  · rw [builtSig_eq hσ]
    simp

/-- C9: every strong sum the build stores (and serializes) is the first
`strongLen` bytes of the full-length digest of the corresponding block. -/
theorem claim9_storedTruncated (s : List Byte) (b ℓ σ : Nat) (i : Nat)
    (hv : validCfg σ ℓ) (_hb : 1 ≤ b) :
    ((builtSig s b ℓ σ).map (fun g => g.strongSigs.get? i) =
      some (((bytesChunks b s).get? i).map (fun c => (digestOf σ c).take ℓ))) ∧
    builtBytes s b ℓ σ = be32 σ ++ be32 b ++ be32 ℓ ++
      ((bytesChunks b s).map
        (fun c => be32 (WeakChecksum c) ++ (digestOf σ c).take ℓ)).flatten := by
  obtain ⟨hℓ, hσ⟩ := hv
  constructor
  · rw [builtSig_eq hσ]
    simp only [Option.map_some']
    rw [get?_map_goodStrong]
    rfl
  · rw [builtBytes_eq hσ]
    rfl



/-- Witness for C7: concrete five-byte input with block length two, and a
concrete empty input. -/
theorem claim7_blockPartition_witness :
    ((builtSig [1, 2, 3, 4, 5] 2 3 MD4_SIG_MAGIC).map (fun g => g.strongSigs.length) =
      some 3) ∧
    (builtSig [] 4 16 BLAKE2_SIG_MAGIC = some ⟨BLAKE2_SIG_MAGIC, 4, 16, [], []⟩) ∧
    (((bytesChunks 2 [1, 2, 3, 4, 5]).getLast?).map List.length = some 1) ∧
    (builtBytes [1, 2, 3, 4, 5] 2 3 MD4_SIG_MAGIC).length = 33 :=
  ⟨(claim7_blockPartition [1, 2, 3, 4, 5] 2 3 MD4_SIG_MAGIC (by decide) (by decide)).1,
   (claim7_blockPartition [] 4 16 BLAKE2_SIG_MAGIC (by decide) (by decide)).2.1 rfl,
   (claim7_blockPartition [1, 2, 3, 4, 5] 2 3 MD4_SIG_MAGIC (by decide) (by decide)).2.2.1
     (by decide),
   (claim7_blockPartition [1, 2, 3, 4, 5] 2 3 MD4_SIG_MAGIC (by decide) (by decide)).2.2.2⟩

/-- Witness for C8 at a concrete input with a short final chunk. -/
theorem claim8_chunkLoop_witness :
    ((bytesChunks 2 [1, 2, 3, 4, 5]).all (fun c => !c.isEmpty && decide (c.length ≤ 2)) =
      true) ∧
    (bytesChunks 2 [1, 2, 3, 4, 5]).flatten = [1, 2, 3, 4, 5] ∧
    ((builtSig [1, 2, 3, 4, 5] 2 3 MD4_SIG_MAGIC).map (fun g => g.strongSigs.length) =
      some (bytesChunks 2 [1, 2, 3, 4, 5]).length) :=
  claim8_chunkLoop [1, 2, 3, 4, 5] 2 3 MD4_SIG_MAGIC (by decide) (by decide)

/-- Witness for C9 at a concrete input and block index. -/
theorem claim9_storedTruncated_witness :
    ((builtSig [1, 2, 3, 4, 5] 2 3 MD4_SIG_MAGIC).map (fun g => g.strongSigs.get? 1) =
      some (((bytesChunks 2 [1, 2, 3, 4, 5]).get? 1).map
        (fun c => (digestOf MD4_SIG_MAGIC c).take 3))) ∧
    builtBytes [1, 2, 3, 4, 5] 2 3 MD4_SIG_MAGIC =
      be32 MD4_SIG_MAGIC ++ be32 2 ++ be32 3 ++
      ((bytesChunks 2 [1, 2, 3, 4, 5]).map
        (fun c => be32 (WeakChecksum c) ++ (digestOf MD4_SIG_MAGIC c).take 3)).flatten :=
  claim9_storedTruncated [1, 2, 3, 4, 5] 2 3 MD4_SIG_MAGIC 1 (by decide) (by decide)

/-- C5: when blocks at positions i < j collide on the same weak checksum `w`
and `j` is the last such position, the built index maps `w` to `j`
(last-write-wins) while the strong sum of block `i` remains stored at
position `i`; decoding the built stream shows the same contents. -/
theorem claim5_lastWriteWins (s : List Byte) (b ℓ σ i j w : Nat)
    (hv : validCfg σ ℓ) (_hb : 1 ≤ b) (hb32 : b < 2 ^ 32) (hij : i < j)
    (_hi : WeakChecksum ((bytesChunks b s).getD i []) = w)
    (hj : lastWeakIdx (bytesChunks b s) w = some j) :
    ((builtSig s b ℓ σ).map (fun g => mapGet g.weak2block w) = some (some j)) ∧
    ((builtSig s b ℓ σ).map (fun g => g.strongSigs.get? i) =
      some (some ((digestOf σ ((bytesChunks b s).getD i [])).take ℓ))) ∧
    ((ReadSignature (builtBytes s b ℓ σ)).map (fun g => mapGet g.weak2block w) =
      some (some j)) ∧
    ((ReadSignature (builtBytes s b ℓ σ)).map (fun g => g.strongSigs.get? i) =
      some (some ((digestOf σ ((bytesChunks b s).getD i [])).take ℓ))) := by
  obtain ⟨hℓ, hσ⟩ := hv
  have hmap : mapGet (insertAll [] (bytesChunks b s) 0) w = some j := by
    have := mapGet_insertAll_some [] 0 hj
    simpa using this
  have hilt : i < (bytesChunks b s).length := lt_trans hij (lastWeakIdx_lt_length hj)
  have hget : ((bytesChunks b s).map (goodStrong σ ℓ)).get? i =
      some (goodStrong σ ℓ ((bytesChunks b s).getD i [])) := by
    rw [get?_map_goodStrong, get?_eq_some_getD _ _ hilt]
    rfl
  refine ⟨?_, ?_, ?_, ?_⟩
  · rw [builtSig_eq hσ]
    simp [hmap]
  · rw [builtSig_eq hσ]
    simp only [Option.map_some']
    rw [hget]
    rfl
  · rw [decode_built hσ hℓ s b hb32]
    simp [hmap]
  · rw [decode_built hσ hℓ s b hb32]
    simp only [Option.map_some']
    rw [hget]
    rfl

/-- Witness for C5: blocks 0 and 1 of the input collide on weak checksum 1. -/
theorem claim5_lastWriteWins_witness :
    ((builtSig [0, 1, 1, 0] 2 1 MD4_SIG_MAGIC).map (fun g => mapGet g.weak2block 1) =
      some (some 1)) ∧
    ((builtSig [0, 1, 1, 0] 2 1 MD4_SIG_MAGIC).map (fun g => g.strongSigs.get? 0) =
      some (some ((digestOf MD4_SIG_MAGIC ((bytesChunks 2 [0, 1, 1, 0]).getD 0 [])).take 1))) ∧
    ((ReadSignature (builtBytes [0, 1, 1, 0] 2 1 MD4_SIG_MAGIC)).map
      (fun g => mapGet g.weak2block 1) = some (some 1)) ∧
    ((ReadSignature (builtBytes [0, 1, 1, 0] 2 1 MD4_SIG_MAGIC)).map
      (fun g => g.strongSigs.get? 0) =
      some (some ((digestOf MD4_SIG_MAGIC ((bytesChunks 2 [0, 1, 1, 0]).getD 0 [])).take 1))) :=
  claim5_lastWriteWins [0, 1, 1, 0] 2 1 MD4_SIG_MAGIC 0 1 1 (by decide) (by decide)
    (by decide) (by decide) (by decide) (by decide)


theorem Signature_eq_loop {σ ℓ : Nat} (hσ : cfgOK σ ℓ) (events : List ReadEv)
    (buf : List Byte) (mask : List Bool) (b : Nat)
    (h0 : mask.getD 0 false = false) (h1 : mask.getD 1 false = false)
    (h2 : mask.getD 2 false = false) :
    Signature events ⟨buf, 0, mask⟩ b ℓ σ =
      match sigLoop σ ℓ events ⟨buf ++ be32 σ ++ be32 b ++ be32 ℓ, 3, mask⟩ [] [] with
      | (w4, LoopRes.ok sigs m) => (w4, SigResult.ok ⟨σ, b, ℓ, sigs, m⟩)
      | (w4, LoopRes.ioErr) => (w4, SigResult.err)
      | (w4, LoopRes.panicked) => (w4, SigResult.panicked) := by
  have hmax : maxStrongOf σ = some (nativeLen σ) ∧ ¬ (nativeLen σ < ℓ) := by
    rcases hσ with ⟨ha, hb'⟩ | ⟨ha, hb'⟩ <;> subst ha <;>
      simp [maxStrongOf, nativeLen, md4_ne_blake2, Nat.not_lt] <;> exact hb'
  rw [Signature, hmax.1]
  simp only [if_neg hmax.2, GoWriter.write, h0, h1, h2, Bool.false_eq_true, if_false,
    List.append_assoc]



theorem getD_false_of_len_le :
    ∀ (mask : List Bool) (i : Nat), mask.length ≤ i → mask.getD i false = false := by
  intro mask
  induction mask with
  | nil => intro i _; simp
  | cons a t ih =>
    intro i h
    cases i with
    | zero => simp at h
    | succ i =>
      simp only [List.getD_cons_succ]
      exact ih i (by simpa using h)

/-- C2 counterexample: with a writer that fails exactly the write of the
first block's strong sum, the build does not abort: the error from
`output.Write(strong)` (line 92) is discarded, the loop continues, and a full
`SignatureType` is returned although the written stream is missing the
16 strong-sum bytes (12 header bytes plus 4 weak-sum bytes were accepted). -/
theorem claim2_counterexample :
    ((Signature [ReadEv.chunk [1, 2]] ⟨[], 0, [false, false, false, false, true]⟩
        2 16 MD4_SIG_MAGIC).2).isOk = true ∧
    (Signature [ReadEv.chunk [1, 2]] ⟨[], 0, [false, false, false, false, true]⟩
        2 16 MD4_SIG_MAGIC).1.buf.length = 16 := by
  decide

/-- C2 amended: an error returned by reading the input, or by writing a
header field or a block's weak checksum, propagates immediately and aborts
the build with no `SignatureType`; an error from writing a block's strong
checksum is silently discarded and the build runs to completion, returning
the full `SignatureType`. -/
theorem claim2_errorPropagation (σ b ℓ : Nat) (hv : validCfg σ ℓ) (buf : List Byte)
    (pre cs : List (List Byte)) (post events : List ReadEv) (k k2 : Nat)
    (mask : List Bool) (hk : k < 3) (hk2 : k2 < cs.length)
    (hmask : ∀ i, i < mask.length → mask.getD i false = true → 4 ≤ i ∧ i % 2 = 0) :
    ((Signature (pre.map ReadEv.chunk ++ ReadEv.rerr :: post) ⟨buf, 0, []⟩ b ℓ σ).2 =
      SigResult.err) ∧
    ((Signature events ⟨buf, 0, List.replicate k false ++ [true]⟩ b ℓ σ).2 =
      SigResult.err) ∧
    ((Signature (cs.map ReadEv.chunk)
        ⟨buf, 0, List.replicate (3 + 2 * k2) false ++ [true]⟩ b ℓ σ).2 =
      SigResult.err) ∧
    ((Signature (cs.map ReadEv.chunk) ⟨buf, 0, mask⟩ b ℓ σ).2 =
      SigResult.ok ⟨σ, b, ℓ, cs.map (goodStrong σ ℓ), insertAll [] cs 0⟩) := by
  obtain ⟨hℓ, hσ⟩ := hv
  have hmax : maxStrongOf σ = some (nativeLen σ) ∧ ¬ (nativeLen σ < ℓ) := by
    rcases hσ with ⟨ha, hb'⟩ | ⟨ha, hb'⟩ <;> subst ha <;>
      simp [maxStrongOf, nativeLen, md4_ne_blake2, Nat.not_lt] <;> exact hb'
  refine ⟨?_, ?_, ?_, ?_⟩
  · rw [Signature_eq_loop hσ _ buf [] b (by simp) (by simp) (by simp)]
    have hloop := sigLoop_rerr hσ pre post (buf ++ be32 σ ++ be32 b ++ be32 ℓ) 3 [] []
    rcases hsl : sigLoop σ ℓ (pre.map ReadEv.chunk ++ ReadEv.rerr :: post)
        ⟨buf ++ be32 σ ++ be32 b ++ be32 ℓ, 3, []⟩ [] [] with ⟨w4, r⟩
    rw [hsl] at hloop
    simp at hloop
    subst hloop
    rfl
  · interval_cases k <;>
      simp [Signature, hmax.1, if_neg hmax.2, GoWriter.write, List.replicate]
  · have hlt : ∀ i, i < 3 + 2 * k2 →
        (List.replicate (3 + 2 * k2) false ++ [true]).getD i false = false := by
      intro i hi
      rw [getD_mask, if_pos hi]
    have htrue : (List.replicate (3 + 2 * k2) false ++ [true]).getD (3 + 2 * k2) false =
        true := by
      rw [getD_mask, if_neg (by omega)]
      simp
    rw [Signature_eq_loop hσ _ buf _ b (hlt 0 (by omega)) (hlt 1 (by omega))
      (hlt 2 (by omega))]
    have hloop := sigLoop_weakFail hσ k2 cs (buf ++ be32 σ ++ be32 b ++ be32 ℓ) 3
      (List.replicate (3 + 2 * k2) false ++ [true]) [] [] hk2
      (fun i hi => hlt (3 + i) (by omega)) (by
        have := htrue
        rw [show 3 + 2 * k2 = 3 + 2 * k2 from rfl] at this
        exact this)
    rcases hsl : sigLoop σ ℓ (cs.map ReadEv.chunk)
        ⟨buf ++ be32 σ ++ be32 b ++ be32 ℓ, 3,
          List.replicate (3 + 2 * k2) false ++ [true]⟩ [] [] with ⟨w4, r⟩
    rw [hsl] at hloop
    simp at hloop
    subst hloop
    rfl
  · have hmask2 : ∀ i, mask.getD i false = true → 4 ≤ i ∧ i % 2 = 0 := by
      intro i hi
      by_cases hlen : i < mask.length
      · exact hmask i hlen hi
      · rw [getD_false_of_len_le mask i (by omega)] at hi
        exact absurd hi (by simp)
    have hfalse : ∀ i, i < 4 ∨ i % 2 = 1 → mask.getD i false = false := by
      intro i hi
      cases h : mask.getD i false
      · rfl
      · rcases hmask2 i h with ⟨h4, h2⟩
        rcases hi with hi | hi <;> omega
    rw [Signature_eq_loop hσ _ buf mask b (hfalse 0 (Or.inl (by omega)))
      (hfalse 1 (Or.inl (by omega))) (hfalse 2 (Or.inl (by omega)))]
    have hloop := sigLoop_strongIgnored hσ cs (buf ++ be32 σ ++ be32 b ++ be32 ℓ) 3
      mask [] [] (fun i => hfalse (3 + 2 * i) (Or.inr (by omega)))
    simp only [List.nil_append, List.length_nil] at hloop
    rcases hsl : sigLoop σ ℓ (cs.map ReadEv.chunk)
        ⟨buf ++ be32 σ ++ be32 b ++ be32 ℓ, 3, mask⟩ [] [] with ⟨w4, r⟩
    rw [hsl] at hloop
    simp at hloop
    subst hloop
    rfl



/-- Witness for C2 amended, at concrete inputs: a mid-stream read error, a
header-write failure, a weak-sum write failure, and a strong-sum-only
failure mask under which the build still returns the full result. -/
theorem claim2_errorPropagation_witness :
    ((Signature [ReadEv.chunk [1], ReadEv.rerr] ⟨[], 0, []⟩ 2 16 MD4_SIG_MAGIC).2 =
      SigResult.err) ∧
    ((Signature [ReadEv.rerr] ⟨[], 0, [false, true]⟩ 2 16 MD4_SIG_MAGIC).2 =
      SigResult.err) ∧
    ((Signature [ReadEv.chunk [1], ReadEv.chunk [2]]
        ⟨[], 0, [false, false, false, false, false, true]⟩ 2 16 MD4_SIG_MAGIC).2 =
      SigResult.err) ∧
    ((Signature [ReadEv.chunk [1], ReadEv.chunk [2]]
        ⟨[], 0, [false, false, false, false, true]⟩ 2 16 MD4_SIG_MAGIC).2 =
      SigResult.ok ⟨MD4_SIG_MAGIC, 2, 16,
        [[1], [2]].map (goodStrong MD4_SIG_MAGIC 16), insertAll [] [[1], [2]] 0⟩) := by
  have h := claim2_errorPropagation MD4_SIG_MAGIC 2 16 (by decide) [] [[1]] [[1], [2]]
    [] [ReadEv.rerr] 1 1 [false, false, false, false, true] (by decide) (by decide)
    (by decide)
  exact ⟨h.1, h.2.1, h.2.2.1, h.2.2.2⟩

/-- C3 counterexample: a requested strong length above the native BLAKE2
digest length does not produce a returned error value; the slicing
`d[:strongLen]` of the 32-byte digest array panics at runtime. -/
theorem claim3_counterexample :
    CalcStrongSum [] BLAKE2_SIG_MAGIC 33 = StrongRes.goPanic := by
  decide

/-- C3 amended: for a recognized tag, a requested length within the native
digest length yields a digest of exactly the requested length (no error);
a requested length above the native digest length makes `CalcStrongSum`
panic rather than return an `InvalidConfiguration` error value.  (Only an
unrecognized tag yields a returned error.) -/
theorem claim3_strongSumContract (data : List Byte) (σ ℓ : Nat)
    (hσ : σ = BLAKE2_SIG_MAGIC ∨ σ = MD4_SIG_MAGIC) :
    (ℓ ≤ nativeLen σ →
      CalcStrongSum data σ ℓ = StrongRes.ok ((digestOf σ data).take ℓ) ∧
      ((digestOf σ data).take ℓ).length = ℓ) ∧
    (nativeLen σ < ℓ → CalcStrongSum data σ ℓ = StrongRes.goPanic) := by
  rcases hσ with h1 | h1 <;> subst h1
  · refine ⟨?_, ?_⟩
    · intro hle
      have hσ2 : cfgOK BLAKE2_SIG_MAGIC ℓ :=
        Or.inl ⟨rfl, by simpa [nativeLen] using hle⟩
      exact ⟨calcStrongSum_ok hσ2 data, goodStrong_length hσ2 data⟩
    · intro hgt
      have hn : ¬ ℓ ≤ BLAKE2_SUM_LENGTH := by
        simp [nativeLen] at hgt
        omega
      simp [CalcStrongSum, hn]
  · refine ⟨?_, ?_⟩
    · intro hle
      have hσ2 : cfgOK MD4_SIG_MAGIC ℓ :=
        Or.inr ⟨rfl, by simpa [nativeLen, md4_ne_blake2] using hle⟩
      exact ⟨calcStrongSum_ok hσ2 data, goodStrong_length hσ2 data⟩
    · intro hgt
      have hn : ¬ ℓ ≤ MD4_SUM_LENGTH := by
        simp [nativeLen, md4_ne_blake2] at hgt
        omega
      simp [CalcStrongSum, md4_ne_blake2, hn]

/-- Witness for C3 amended at concrete inputs on both sides of the bound. -/
theorem claim3_strongSumContract_witness :
    (CalcStrongSum [7] MD4_SIG_MAGIC 5 =
        StrongRes.ok ((digestOf MD4_SIG_MAGIC [7]).take 5) ∧
      ((digestOf MD4_SIG_MAGIC [7]).take 5).length = 5) ∧
    CalcStrongSum [7] BLAKE2_SIG_MAGIC 33 = StrongRes.goPanic :=
  ⟨(claim3_strongSumContract [7] MD4_SIG_MAGIC 5 (Or.inr rfl)).1 (by decide),
   (claim3_strongSumContract [7] BLAKE2_SIG_MAGIC 33 (Or.inl rfl)).2 (by decide)⟩

/-- C4: decoding a stream of a complete header (positive strong length) and
complete records ending at a record boundary succeeds with exactly those
records; a stream with a further weak checksum whose strong sum is short by
at least one byte fails with an error. -/
theorem claim4_truncationDetection (a bl ℓ wk : Nat) (recs : List (Nat × List Byte))
    (t : List Byte) (ha : a < 2 ^ 32) (hb : bl < 2 ^ 32) (hl32 : ℓ < 2 ^ 32)
    (hℓ : 1 ≤ ℓ) (hr : ∀ r ∈ recs, r.1 < 2 ^ 32 ∧ r.2.length = ℓ)
    (ht : t.length < ℓ) :
    (ReadSignature (be32 a ++ (be32 bl ++ (be32 ℓ ++ recsBytes recs))) =
      some ⟨a, bl, ℓ, recs.map Prod.snd, insertRecords [] recs 0⟩) ∧
    (ReadSignature
        (be32 a ++ (be32 bl ++ (be32 ℓ ++ (recsBytes recs ++ (be32 wk ++ t))))) =
      none) :=
  ⟨ReadSignature_complete a bl ℓ recs ha hb hl32 (Or.inl hℓ) hr,
   ReadSignature_truncated a bl ℓ wk recs t hl32 ht (fun r hrr => (hr r hrr).2)⟩

/-- Witness for C4: one complete two-byte-strong-sum record decodes; a
following record cut one byte short fails. -/
theorem claim4_truncationDetection_witness :
    (ReadSignature (be32 1 ++ (be32 4 ++ (be32 2 ++ recsBytes [(5, [9, 9])]))) =
      some ⟨1, 4, 2, [[9, 9]], insertRecords [] [(5, [9, 9])] 0⟩) ∧
    (ReadSignature
        (be32 1 ++ (be32 4 ++ (be32 2 ++ (recsBytes [(5, [9, 9])] ++ (be32 6 ++ [7]))))) =
      none) :=
  claim4_truncationDetection 1 4 2 6 [(5, [9, 9])] [7] (by decide) (by decide)
    (by decide) (by decide) (by decide) (by decide)

/-- C10 counterexample: a stream with a complete header declaring strong
length zero, followed by one complete record (a weak checksum and an empty
strong sum), is well formed per the claim, yet decoding fails: the final
`Read` into the empty strong-sum buffer happens on an exhausted reader and
returns `io.EOF`, which the decode loop treats as an error. -/
theorem claim10_counterexample :
    ReadSignature (be32 19088743 ++ (be32 7 ++ (be32 0 ++ recsBytes [(5, [])]))) =
      none := by
  decide

/-- C10 amended: decode stores the header fields verbatim without any
validation -- any algorithm tag (including ones the build rejects) and any
block length decode fine -- but a strong length of zero succeeds only for a
record-free stream; with at least one record the final empty strong-sum read
fails at end of stream.  Decode never rejects a tag or a configuration. -/
theorem claim10_decodeNoValidation (a bl ℓ : Nat) (recs : List (Nat × List Byte))
    (ha : a < 2 ^ 32) (hb : bl < 2 ^ 32) (hl32 : ℓ < 2 ^ 32)
    (h0 : 1 ≤ ℓ ∨ recs = [])
    (hr : ∀ r ∈ recs, r.1 < 2 ^ 32 ∧ r.2.length = ℓ) :
    ReadSignature (be32 a ++ (be32 bl ++ (be32 ℓ ++ recsBytes recs))) =
      some ⟨a, bl, ℓ, recs.map Prod.snd, insertRecords [] recs 0⟩ :=
  ReadSignature_complete a bl ℓ recs ha hb hl32 h0 hr

/-- Witness for C10 amended: an algorithm tag the build rejects and a zero
block length decode verbatim. -/
theorem claim10_decodeNoValidation_witness :
    ReadSignature (be32 19088743 ++ (be32 0 ++ (be32 1 ++ recsBytes [(5, [8])]))) =
      some ⟨19088743, 0, 1, [[8]], insertRecords [] [(5, [8])] 0⟩ :=
  claim10_decodeNoValidation 19088743 0 1 [(5, [8])] (by decide) (by decide)
    (by decide) (Or.inl (by decide)) (by decide)

end Librsync
